import Mathlib

/-!
Shallow embedding of `pkg/scheme/group_version.go` from HappyLadySauce/component-base.

Go strings are modelled as Lean `String`; the byte-level operations used by the
source (`strings.Index`, `strings.Count`, `strings.SplitN`, slicing, `strings.Join`)
all act on single-character separators, so they are modelled as operations on the
underlying character list `String.data`.
-/

namespace Scheme

/-- Index of the first occurrence of character `c` in the list, as `strings.Index`
(absence modelled as `none` rather than Go's `-1`). -/
def charIndex (c : Char) : List Char → Option Nat
  | [] => none
  | a :: as => if a = c then some 0 else (charIndex c as).map (· + 1)

/-- Go `strings.Count(s, c)` for a single-character substring `c`. -/
def strCount (s : String) (c : Char) : Nat := s.data.count c

/-- Go slice `s[:n]`. -/
def strTake (s : String) (n : Nat) : String := ⟨s.data.take n⟩

/-- Go slice `s[n:]`. -/
def strDrop (s : String) (n : Nat) : String := ⟨s.data.drop n⟩

/-- Go `strings.Join(elems, sep)`. -/
def strJoin (sep : String) : List String → String
  | [] => ""
  | [x] => x
  | x :: xs => x ++ sep ++ strJoin sep xs

/-- Go `type GroupResource struct { Group, Resource string }` -/
structure GroupResource where
  Group : String
  Resource : String
deriving DecidableEq, Repr

/-- Go `type GroupVersionResource struct { Group, Version, Resource string }` -/
structure GroupVersionResource where
  Group : String
  Version : String
  Resource : String
deriving DecidableEq, Repr

/-- Go `type GroupKind struct { Group, Kind string }` -/
structure GroupKind where
  Group : String
  Kind : String
deriving DecidableEq, Repr

/-- Go `type GroupVersionKind struct { Group, Version, Kind string }` -/
structure GroupVersionKind where
  Group : String
  Version : String
  Kind : String
deriving DecidableEq, Repr

/-- Go `type GroupVersion struct { Group, Version string }` -/
structure GroupVersion where
  Group : String
  Version : String
deriving DecidableEq, Repr

/-- Go `type GroupVersions []GroupVersion` -/
abbrev GroupVersions := List GroupVersion

/-- Go `func ParseGroupResource(gr string) GroupResource` -/
def ParseGroupResource (gr : String) : GroupResource :=
  match charIndex '.' gr.data with
  | some i => { Group := strDrop gr (i + 1), Resource := strTake gr i }
  | none => { Group := "", Resource := gr }

/-- Go `func ParseGroupKind(gk string) GroupKind` -/
def ParseGroupKind (gk : String) : GroupKind :=
  match charIndex '.' gk.data with
  | some i => { Group := strDrop gk (i + 1), Kind := strTake gk i }
  | none => { Group := "", Kind := gk }

/-- Go `strings.SplitN(arg, ".", 3)` for an `arg` containing at least two dots:
split at the first two dots, remainder taken verbatim. When fewer dots are
present the missing parts are empty (the source only calls this with two or
more dots present). -/
def splitN3 (arg : String) : String × String × String :=
  match charIndex '.' arg.data with
  | none => (arg, "", "")
  | some i =>
    let rest := strDrop arg (i + 1)
    match charIndex '.' rest.data with
    | none => (strTake arg i, rest, "")
    | some j => (strTake arg i, strTake rest j, strDrop rest (j + 1))

/-- Go `func ParseResourceArg(arg string) (*GroupVersionResource, GroupResource)`
(the nil pointer modelled as `none`). -/
def ParseResourceArg (arg : String) : Option GroupVersionResource × GroupResource :=
  let gvr : Option GroupVersionResource :=
    if 2 ≤ strCount arg '.' then
      let s := splitN3 arg
      some { Group := s.2.2, Version := s.2.1, Resource := s.1 }
    else none
  (gvr, ParseGroupResource arg)

/-- Go `func ParseKindArg(arg string) (*GroupVersionKind, GroupKind)` -/
def ParseKindArg (arg : String) : Option GroupVersionKind × GroupKind :=
  let gvk : Option GroupVersionKind :=
    if 2 ≤ strCount arg '.' then
      let s := splitN3 arg
      some { Group := s.2.2, Version := s.2.1, Kind := s.1 }
    else none
  (gvk, ParseGroupKind arg)

/-- Go `func (gv GroupVersion) String() string` -/
def GroupVersion.render (gv : GroupVersion) : String :=
  if 0 < gv.Group.length then gv.Group ++ "/" ++ gv.Version else gv.Version

/-- Go `func (gv GroupVersion) Identifier() string` -/
def GroupVersion.Identifier (gv : GroupVersion) : String := gv.render

/-- Go `func (gv GroupVersion) WithKind(kind string) GroupVersionKind` -/
def GroupVersion.WithKind (gv : GroupVersion) (kind : String) : GroupVersionKind :=
  { Group := gv.Group, Version := gv.Version, Kind := kind }

/-- Go `func (gv GroupVersion) WithResource(resource string) GroupVersionResource` -/
def GroupVersion.WithResource (gv : GroupVersion) (resource : String) : GroupVersionResource :=
  { Group := gv.Group, Version := gv.Version, Resource := resource }

/-- Go `func (gv GroupVersion) KindForGroupVersionKinds(kinds) (GroupVersionKind, bool)`:
first pass looks for an exact group+version match, second pass for a group
match with the receiver's version substituted in. -/
def GroupVersion.KindForGroupVersionKinds (gv : GroupVersion)
    (kinds : List GroupVersionKind) : GroupVersionKind × Bool :=
  match kinds.find? (fun gvk => gvk.Group == gv.Group && gvk.Version == gv.Version) with
  | some gvk => (gvk, true)
  | none =>
    match kinds.find? (fun gvk => gvk.Group == gv.Group) with
    | some gvk => (gv.WithKind gvk.Kind, true)
    | none => (⟨"", "", ""⟩, false)

/-- Go `func ParseGroupVersion(gv string) (GroupVersion, error)` -/
def ParseGroupVersion (gv : String) : Except String GroupVersion :=
  if gv.length = 0 ∨ gv = "/" then .ok ⟨"", ""⟩
  else
    match strCount gv '/' with
    | 0 => .ok ⟨"", gv⟩
    | 1 =>
      -- count = 1 guarantees the index exists, so the default is never taken
      let i := (charIndex '/' gv.data).getD 0
      .ok ⟨strTake gv i, strDrop gv (i + 1)⟩
    | _ => .error ("unexpected GroupVersion string: " ++ gv)

/-- Go `func (gvs GroupVersions) Identifier() string`: the element renderings,
comma-joined, wrapped in square brackets. -/
def GroupVersions.Identifier (gvs : GroupVersions) : String :=
  "[" ++ strJoin "," (gvs.map GroupVersion.render) ++ "]"

/-- The `targets` slice built by the loop in
`func (gvs GroupVersions) KindForGroupVersionKinds`: every successful result of
the single-group-version probe, in discovery order. -/
def gvsTargets (gvs : GroupVersions) (kinds : List GroupVersionKind) :
    List GroupVersionKind :=
  gvs.filterMap (fun gv =>
    match gv.KindForGroupVersionKinds kinds with
    | (t, true) => some t
    | (_, false) => none)

/-- Go `func bestMatch(kinds, targets []GroupVersionKind) GroupVersionKind` -/
def bestMatch (kinds targets : List GroupVersionKind) : GroupVersionKind :=
  match targets.find? (fun gvk => kinds.contains gvk) with
  | some k => k
  | none => targets.headD ⟨"", "", ""⟩

/-- Go `func (gvs GroupVersions) KindForGroupVersionKinds(kinds) (GroupVersionKind, bool)` -/
def GroupVersions.KindForGroupVersionKinds (gvs : GroupVersions)
    (kinds : List GroupVersionKind) : GroupVersionKind × Bool :=
  match gvsTargets gvs kinds with
  | [] => (⟨"", "", ""⟩, false)
  | [t] => (t, true)
  | ts => (bestMatch kinds ts, true)

/-- Go `func (gvk GroupVersionKind) Empty() bool` -/
def GroupVersionKind.isEmpty (gvk : GroupVersionKind) : Bool :=
  gvk.Group.length == 0 && gvk.Version.length == 0 && gvk.Kind.length == 0

/-- Go `func (gvk GroupVersionKind) GroupVersion() GroupVersion` -/
def GroupVersionKind.groupVersion (gvk : GroupVersionKind) : GroupVersion :=
  { Group := gvk.Group, Version := gvk.Version }

/-- Go `func (gvk GroupVersionKind) ToAPIVersionAndKind() (string, string)` -/
def GroupVersionKind.ToAPIVersionAndKind (gvk : GroupVersionKind) : String × String :=
  if gvk.isEmpty then ("", "")
  else (gvk.groupVersion.render, gvk.Kind)

/-- Go `func FromAPIVersionAndKind(apiVersion, kind string) GroupVersionKind` -/
def FromAPIVersionAndKind (apiVersion kind : String) : GroupVersionKind :=
  match ParseGroupVersion apiVersion with
  | .ok gv => { Group := gv.Group, Version := gv.Version, Kind := kind }
  | .error _ => { Group := "", Version := "", Kind := kind }

end Scheme

namespace Scheme

/-! ### Helper lemmas about the character-level operations -/

theorem charIndex_eq_none {c : Char} : ∀ {l : List Char}, charIndex c l = none ↔ c ∉ l
  | [] => by simp [charIndex]
  | a :: as => by
    simp only [charIndex, List.mem_cons]
    by_cases h : a = c
    · simp [h]
    · rw [if_neg h, Option.map_eq_none']
      rw [charIndex_eq_none]
      constructor
      · intro hn hmem
        rcases hmem with h1 | h2
        · exact h h1.symm
        · exact hn h2
      · intro hn h2
        exact hn (Or.inr h2)

theorem charIndex_append (c : Char) (r : List Char) :
    ∀ {l : List Char}, c ∉ l → charIndex c (l ++ c :: r) = some l.length
  | [], _ => by simp [charIndex]
  | a :: as, h => by
    have ha : a ≠ c := fun hh => h (hh ▸ List.mem_cons_self a as)
    simp only [List.cons_append, charIndex, if_neg ha, List.append_eq]
    rw [charIndex_append c r (fun hm => h (List.mem_cons_of_mem a hm))]
    rfl

theorem charIndex_some_decomp {c : Char} :
    ∀ {l : List Char} {i : Nat}, charIndex c l = some i →
      ∃ l1 r, l = l1 ++ c :: r ∧ c ∉ l1 ∧ l1.length = i
  | [], i, h => by simp [charIndex] at h
  | a :: as, i, h => by
    by_cases ha : a = c
    · subst ha
      simp only [charIndex, if_pos rfl, Option.some.injEq] at h
      exact ⟨[], as, rfl, by simp, by simpa using h⟩
    · simp only [charIndex, if_neg ha, Option.map_eq_some'] at h
      obtain ⟨j, hj, hij⟩ := h
      obtain ⟨l1, r, he, hn, hl⟩ := charIndex_some_decomp hj
      refine ⟨a :: l1, r, by rw [he]; rfl, ?_, by simp [hl, hij]⟩
      intro hm
      rcases List.mem_cons.mp hm with h1 | h2
      · exact ha h1.symm
      · exact hn h2

theorem take_append_cons (l r : List Char) (c : Char) :
    (l ++ c :: r).take l.length = l := List.take_left l (c :: r)

theorem drop_append_cons (l r : List Char) (c : Char) :
    (l ++ c :: r).drop (l.length + 1) = r := by
  have : l ++ c :: r = (l ++ [c]) ++ r := by simp
  rw [this]
  have hlen : l.length + 1 = (l ++ [c]).length := by simp
  rw [hlen, List.drop_left]

theorem count_sep_decomp (c : Char) {l1 : List Char} (r : List Char) (h : c ∉ l1) :
    (l1 ++ c :: r).count c = r.count c + 1 := by
  rw [List.count_append, List.count_cons_self, List.count_eq_zero.mpr h]
  omega

theorem count_pos_of_mem {c : Char} {l : List Char} (h : c ∈ l) : 0 < l.count c :=
  List.count_pos_iff.mpr h

theorem sep_split_unique {c : Char} :
    ∀ {l1 l2 r1 r2 : List Char}, c ∉ l1 → c ∉ l2 →
      l1 ++ c :: r1 = l2 ++ c :: r2 → l1 = l2 ∧ r1 = r2
  | [], [], _, _, _, _, he => by simpa using he
  | [], b :: bs, _, _, _, h2, he => by
    simp only [List.nil_append, List.cons_append, List.cons.injEq] at he
    exact absurd (he.1 ▸ List.mem_cons_self b bs) h2
  | a :: as, [], _, _, h1, _, he => by
    simp only [List.cons_append, List.nil_append, List.cons.injEq] at he
    exact absurd (he.1.symm ▸ List.mem_cons_self a as) h1
  | a :: as, b :: bs, r1, r2, h1, h2, he => by
    simp only [List.cons_append, List.cons.injEq] at he
    obtain ⟨hab, he2⟩ := he
    have ih := sep_split_unique (c := c)
      (fun hm => h1 (List.mem_cons_of_mem a hm))
      (fun hm => h2 (List.mem_cons_of_mem b hm)) he2
    exact ⟨by rw [hab, ih.1], ih.2⟩

theorem find?_eq_some_split {α : Type} {p : α → Bool} :
    ∀ {l : List α} {a : α}, l.find? p = some a →
      p a = true ∧ ∃ l1 l2, l = l1 ++ a :: l2 ∧ ∀ x ∈ l1, p x = false
  | [], _, h => by simp [List.find?] at h
  | x :: xs, a, h => by
    by_cases hx : p x
    · rw [List.find?_cons_of_pos _ hx] at h
      have hxa : x = a := by injection h
      subst hxa
      exact ⟨hx, [], xs, rfl, by simp⟩
    · rw [List.find?_cons_of_neg _ hx] at h
      obtain ⟨hpa, l1, l2, he, hall⟩ := find?_eq_some_split h
      refine ⟨hpa, x :: l1, l2, by rw [he]; rfl, ?_⟩
      intro y hy
      rcases List.mem_cons.mp hy with rfl | hmem
      · exact Bool.eq_false_iff.mpr hx
      · exact hall y hmem

/-! ### Helper lemmas about strings -/

theorem data_eq_nil_iff {s : String} : s.data = [] ↔ s = "" := by
  constructor
  · intro h
    cases s
    simp_all
  · intro h
    rw [h]

theorem length_eq_data {s : String} : s.length = s.data.length := rfl

theorem render_data_of_group_ne {g v : String} (hg : g ≠ "") :
    (GroupVersion.render ⟨g, v⟩).data = g.data ++ '/' :: v.data := by
  have hd : g.data ≠ [] := fun h => hg (data_eq_nil_iff.mp h)
  have hlen : 0 < g.length := by
    rw [length_eq_data]
    exact List.length_pos.mpr hd
  show (if 0 < g.length then g ++ "/" ++ v else v).data = _
  rw [if_pos hlen, String.data_append, String.data_append]
  have hslash : ("/" : String).data = ['/'] := by decide
  rw [hslash, List.append_assoc]
  rfl

theorem render_data_of_group_empty (v : String) :
    (GroupVersion.render ⟨"", v⟩).data = v.data := by
  show (if 0 < String.length "" then "" ++ "/" ++ v else v).data = _
  rfl

/-! ### Branch equations for the single-group-version probe -/

theorem kindFor_eq_exact {gv : GroupVersion} {kinds : List GroupVersionKind}
    {k : GroupVersionKind}
    (hf : kinds.find? (fun gvk => gvk.Group == gv.Group && gvk.Version == gv.Version) = some k) :
    gv.KindForGroupVersionKinds kinds = (k, true) := by
  unfold GroupVersion.KindForGroupVersionKinds
  rw [hf]

theorem kindFor_eq_group {gv : GroupVersion} {kinds : List GroupVersionKind}
    {k : GroupVersionKind}
    (hf1 : kinds.find? (fun gvk => gvk.Group == gv.Group && gvk.Version == gv.Version) = none)
    (hf2 : kinds.find? (fun gvk => gvk.Group == gv.Group) = some k) :
    gv.KindForGroupVersionKinds kinds = (gv.WithKind k.Kind, true) := by
  unfold GroupVersion.KindForGroupVersionKinds
  rw [hf1, hf2]

theorem kindFor_eq_notfound {gv : GroupVersion} {kinds : List GroupVersionKind}
    (hf1 : kinds.find? (fun gvk => gvk.Group == gv.Group && gvk.Version == gv.Version) = none)
    (hf2 : kinds.find? (fun gvk => gvk.Group == gv.Group) = none) :
    gv.KindForGroupVersionKinds kinds = (⟨"", "", ""⟩, false) := by
  unfold GroupVersion.KindForGroupVersionKinds
  rw [hf1, hf2]

/-- C2: `GroupVersion.KindForGroupVersionKinds`: first pass returns the first
candidate matching group and version exactly; otherwise the second pass returns
`gv.WithKind` of the kind of the first candidate matching the group (candidate
version discarded); otherwise the zero kind with ok = false. -/
theorem gv_kindForGroupVersionKinds_correct (gv : GroupVersion)
    (kinds : List GroupVersionKind) :
    (∃ k l1 l2, kinds = l1 ++ k :: l2 ∧ k.Group = gv.Group ∧ k.Version = gv.Version ∧
        (∀ x ∈ l1, ¬(x.Group = gv.Group ∧ x.Version = gv.Version)) ∧
        gv.KindForGroupVersionKinds kinds = (k, true))
  ∨ ((∀ x ∈ kinds, ¬(x.Group = gv.Group ∧ x.Version = gv.Version)) ∧
      ∃ k l1 l2, kinds = l1 ++ k :: l2 ∧ k.Group = gv.Group ∧
        (∀ x ∈ l1, x.Group ≠ gv.Group) ∧
        gv.KindForGroupVersionKinds kinds = (gv.WithKind k.Kind, true))
  ∨ ((∀ x ∈ kinds, x.Group ≠ gv.Group) ∧
      gv.KindForGroupVersionKinds kinds = (⟨"", "", ""⟩, false)) := by
  cases hf : kinds.find? (fun gvk => gvk.Group == gv.Group && gvk.Version == gv.Version) with
  | some k =>
    left
    obtain ⟨hp, l1, l2, he, hall⟩ := find?_eq_some_split hf
    rw [Bool.and_eq_true, beq_iff_eq, beq_iff_eq] at hp
    refine ⟨k, l1, l2, he, hp.1, hp.2, ?_, kindFor_eq_exact hf⟩
    intro x hx hcontra
    have hfx := hall x hx
    simp [hcontra.1, hcontra.2] at hfx
  | none =>
    have hnone : ∀ x ∈ kinds, ¬(x.Group = gv.Group ∧ x.Version = gv.Version) := by
      intro x hx hc
      have := List.find?_eq_none.mp hf x hx
      simp [hc.1, hc.2] at this
    cases hf2 : kinds.find? (fun gvk => gvk.Group == gv.Group) with
    | some k =>
      right; left
      obtain ⟨hp, l1, l2, he, hall⟩ := find?_eq_some_split hf2
      rw [beq_iff_eq] at hp
      refine ⟨hnone, k, l1, l2, he, hp, ?_, kindFor_eq_group hf hf2⟩
      intro x hx hcontra
      have hfx := hall x hx
      simp [hcontra] at hfx
    | none =>
      right; right
      refine ⟨?_, kindFor_eq_notfound hf hf2⟩
      intro x hx hcontra
      have := List.find?_eq_none.mp hf2 x hx
      simp [hcontra] at this

/-- Witness for C2 at a concrete input: matching on the proved case analysis at
an empty candidate list yields the not-found result. -/
theorem gv_kindForGroupVersionKinds_correct_witness :
    GroupVersion.KindForGroupVersionKinds ⟨"g", "v"⟩ [] = (⟨"", "", ""⟩, false) := by
  rcases gv_kindForGroupVersionKinds_correct ⟨"g", "v"⟩ [] with
      ⟨k, l1, l2, he, -⟩ | ⟨-, k, l1, l2, he, -⟩ | ⟨-, hres⟩
  · exact absurd he (by simp)
  · exact absurd he (by simp)
  · exact hres

/-- C10: whenever the single-group-version probe reports ok = true, the result's
group equals the receiver's, the result is either literally a candidate or has
the receiver's version, and its kind is the kind of some candidate. -/
theorem gv_kindFor_ok_sound (gv : GroupVersion) (kinds : List GroupVersionKind)
    (t : GroupVersionKind) (h : gv.KindForGroupVersionKinds kinds = (t, true)) :
    t.Group = gv.Group ∧ (t ∈ kinds ∨ t.Version = gv.Version) ∧
      t.Kind ∈ kinds.map GroupVersionKind.Kind := by
  unfold GroupVersion.KindForGroupVersionKinds at h
  cases hf : kinds.find? (fun gvk => gvk.Group == gv.Group && gvk.Version == gv.Version) with
  | some k =>
    rw [hf] at h
    have hkt : k = t := by injection h
    subst hkt
    have hp := List.find?_some hf
    rw [Bool.and_eq_true, beq_iff_eq, beq_iff_eq] at hp
    have hmem := List.mem_of_find?_eq_some hf
    exact ⟨hp.1, Or.inl hmem, List.mem_map_of_mem GroupVersionKind.Kind hmem⟩
  | none =>
    rw [hf] at h
    cases hf2 : kinds.find? (fun gvk => gvk.Group == gv.Group) with
    | some k =>
      rw [hf2] at h
      have hkt : gv.WithKind k.Kind = t := by injection h
      subst hkt
      have hmem := List.mem_of_find?_eq_some hf2
      exact ⟨rfl, Or.inr rfl,
        show k.Kind ∈ _ from List.mem_map_of_mem GroupVersionKind.Kind hmem⟩
    | none =>
      rw [hf2] at h
      injection h with h1 h2
      exact absurd h2 (by decide)

/-- Witness for C10 at a concrete input. -/
theorem gv_kindFor_ok_sound_witness :
    GroupVersionKind.Group ⟨"g", "v", "K"⟩ = GroupVersion.Group ⟨"g", "v"⟩ ∧
      ((⟨"g", "v", "K"⟩ : GroupVersionKind) ∈ [(⟨"g", "v", "K"⟩ : GroupVersionKind)] ∨
        GroupVersionKind.Version ⟨"g", "v", "K"⟩ = GroupVersion.Version ⟨"g", "v"⟩) ∧
      GroupVersionKind.Kind ⟨"g", "v", "K"⟩ ∈
        [(⟨"g", "v", "K"⟩ : GroupVersionKind)].map GroupVersionKind.Kind :=
  gv_kindFor_ok_sound ⟨"g", "v"⟩ [⟨"g", "v", "K"⟩] ⟨"g", "v", "K"⟩ rfl

/-! ### Branch equations for `ParseGroupVersion` -/

theorem length_zero_iff {s : String} : s.length = 0 ↔ s = "" := by
  rw [length_eq_data, List.length_eq_zero]
  exact data_eq_nil_iff

theorem parseGV_eq_of_count0 {s : String} (h0 : strCount s '/' = 0) :
    ParseGroupVersion s = .ok ⟨"", s⟩ := by
  unfold ParseGroupVersion
  by_cases hs : s.length = 0 ∨ s = "/"
  · rw [if_pos hs]
    rcases hs with h1 | h1
    · rw [length_zero_iff.mp h1]
    · exfalso
      rw [h1] at h0
      exact absurd h0 (by decide)
  · rw [if_neg hs, h0]

theorem parseGV_eq_of_split {s : String} {l r : List Char}
    (he : s.data = l ++ '/' :: r) (hl : '/' ∉ l) (h1 : strCount s '/' = 1) :
    ParseGroupVersion s = .ok ⟨⟨l⟩, ⟨r⟩⟩ := by
  unfold ParseGroupVersion
  by_cases hs : s.length = 0 ∨ s = "/"
  · rw [if_pos hs]
    rcases hs with hz | hz
    · exfalso
      rw [length_zero_iff.mp hz] at he
      exact List.cons_ne_nil '/' r (List.append_eq_nil.mp he.symm).2
    · rw [hz] at he
      have hd : l ++ '/' :: r = ['/'] := by
        rw [← he]
      cases l with
      | nil =>
        simp only [List.nil_append, List.cons.injEq] at hd
        rw [hd.2]
      | cons a as =>
        exfalso
        have := congrArg List.length hd
        simp at this
  · rw [if_neg hs, h1]
    have hidx : charIndex '/' s.data = some l.length := by
      rw [he]
      exact charIndex_append _ _ hl
    simp only [hidx, Option.getD_some]
    have ht : strTake s l.length = ⟨l⟩ := by
      unfold strTake
      rw [he, take_append_cons]
    have hdp : strDrop s (l.length + 1) = ⟨r⟩ := by
      unfold strDrop
      rw [he, drop_append_cons]
    rw [ht, hdp]

theorem parseGV_error_iff {s : String} :
    (∃ e, ParseGroupVersion s = .error e) ↔ 2 ≤ strCount s '/' := by
  constructor
  · rintro ⟨e, he⟩
    by_contra hlt
    push_neg at hlt
    have h01 : strCount s '/' = 0 ∨ strCount s '/' = 1 := by omega
    rcases h01 with h0 | h1
    · rw [parseGV_eq_of_count0 h0] at he
      exact Except.noConfusion he
    · have hmem : '/' ∈ s.data := by
        by_contra hmem
        have : strCount s '/' = 0 := List.count_eq_zero.mpr hmem
        omega
      obtain ⟨i, hi⟩ : ∃ i, charIndex '/' s.data = some i := by
        cases hci : charIndex '/' s.data with
        | none => exact absurd hmem (charIndex_eq_none.mp hci)
        | some i => exact ⟨i, rfl⟩
      obtain ⟨l, r, hdec, hnl, -⟩ := charIndex_some_decomp hi
      rw [parseGV_eq_of_split hdec hnl h1] at he
      exact Except.noConfusion he
  · intro h2
    have hs : ¬(s.length = 0 ∨ s = "/") := by
      rintro (hz | hz)
      · have : strCount s '/' = 0 := by
          show s.data.count '/' = 0
          rw [data_eq_nil_iff.mpr (length_zero_iff.mp hz)]
          rfl
        omega
      · rw [hz] at h2
        exact absurd h2 (by decide)
    obtain ⟨n, hn⟩ : ∃ n, strCount s '/' = n + 2 := ⟨strCount s '/' - 2, by omega⟩
    refine ⟨"unexpected GroupVersion string: " ++ s, ?_⟩
    unfold ParseGroupVersion
    rw [if_neg hs, hn]
    rfl

/-- C3: `ParseGroupVersion`: zero slashes yields `{group: "", version: s}`,
exactly one slash splits at it (prefix = group, suffix = version), two or more
slashes fail with a malformed-identity error (and this is the only failing
input), and `""` and `"/"` both yield the fully-empty GroupVersion without
error. -/
theorem parseGroupVersion_correct (s : String) :
    (strCount s '/' = 0 → ParseGroupVersion s = .ok ⟨"", s⟩)
  ∧ (∀ l r, s.data = l ++ '/' :: r → '/' ∉ l → strCount s '/' = 1 →
        ParseGroupVersion s = .ok ⟨⟨l⟩, ⟨r⟩⟩)
  ∧ ((∃ e, ParseGroupVersion s = .error e) ↔ 2 ≤ strCount s '/')
  ∧ ParseGroupVersion "" = .ok ⟨"", ""⟩ ∧ ParseGroupVersion "/" = .ok ⟨"", ""⟩ :=
  ⟨parseGV_eq_of_count0,
   fun _ _ he hl h1 => parseGV_eq_of_split he hl h1,
   parseGV_error_iff, rfl, rfl⟩

/-- Witness for C3 at a concrete input. -/
theorem parseGroupVersion_correct_witness :
    ParseGroupVersion "apps/v1" = .ok ⟨"apps", "v1"⟩ :=
  (parseGroupVersion_correct "apps/v1").2.1 ['a', 'p', 'p', 's'] ['v', '1']
    (by decide) (by decide) (by decide)

theorem data_inj {s1 s2 : String} (h : s1.data = s2.data) : s1 = s2 :=
  congrArg String.mk h

theorem str_append_assoc (a b c : String) : a ++ b ++ c = a ++ (b ++ c) := by
  apply data_inj
  rw [String.data_append, String.data_append, String.data_append, String.data_append,
    List.append_assoc]

/-- C6: round-trip of rendering and parsing: with slash-free fields and a
non-empty group, parsing the rendering reconstructs the value; with an empty
group the rendering is the bare version and reparsing yields `{"", v}`. -/
theorem groupVersion_roundtrip (g v : String)
    (hg : '/' ∉ g.data) (hv : '/' ∉ v.data) :
    (g ≠ "" → ParseGroupVersion (GroupVersion.render ⟨g, v⟩) = .ok ⟨g, v⟩)
  ∧ GroupVersion.render ⟨"", v⟩ = v
  ∧ ParseGroupVersion v = .ok ⟨"", v⟩ := by
  have hv0 : strCount v '/' = 0 := List.count_eq_zero.mpr hv
  refine ⟨?_, rfl, parseGV_eq_of_count0 hv0⟩
  intro hgne
  have hd : (GroupVersion.render ⟨g, v⟩).data = g.data ++ '/' :: v.data :=
    render_data_of_group_ne hgne
  have hc : strCount (GroupVersion.render ⟨g, v⟩) '/' = 1 := by
    show (GroupVersion.render ⟨g, v⟩).data.count '/' = 1
    rw [hd, count_sep_decomp _ _ hg, List.count_eq_zero.mpr hv]
  rw [parseGV_eq_of_split hd hg hc]

/-- Witness for C6 at a concrete input. -/
theorem groupVersion_roundtrip_witness :
    ParseGroupVersion (GroupVersion.render ⟨"apps", "v1"⟩) = .ok ⟨"apps", "v1"⟩ :=
  (groupVersion_roundtrip "apps" "v1" (by decide) (by decide)).1 (by decide)

/-- C7: `GroupVersions.Identifier` renders the elements in order via
`GroupVersion.render`, comma-joined with no spaces, wrapped in square brackets;
in particular `[{g1,v1},{"",v2}]` renders as `"[g1/v1,v2]"`. -/
theorem gvsIdentifier_format (g1 v1 v2 : String) (h : g1 ≠ "") :
    GroupVersions.Identifier [⟨g1, v1⟩, ⟨"", v2⟩] =
      "[" ++ g1 ++ "/" ++ v1 ++ "," ++ v2 ++ "]"
  ∧ ∀ gvs : GroupVersions, GroupVersions.Identifier gvs =
      "[" ++ strJoin "," (gvs.map GroupVersion.render) ++ "]" := by
  constructor
  · have h1 : GroupVersion.render ⟨g1, v1⟩ = g1 ++ "/" ++ v1 := by
      unfold GroupVersion.render
      rw [if_pos]
      rw [length_eq_data]
      exact List.length_pos.mpr (fun hn => h (data_eq_nil_iff.mp hn))
    unfold GroupVersions.Identifier
    simp only [List.map_cons, List.map_nil, h1]
    rw [show GroupVersion.render ⟨"", v2⟩ = v2 from rfl]
    rw [show strJoin "," [g1 ++ "/" ++ v1, v2] = g1 ++ "/" ++ v1 ++ "," ++ v2 from rfl]
    apply data_inj
    simp [String.data_append, List.append_assoc]
  · intro gvs
    rfl

/-- Witness for C7 at a concrete input. -/
theorem gvsIdentifier_format_witness :
    GroupVersions.Identifier [⟨"g1", "v1"⟩, ⟨"", "v2"⟩] = "[g1/v1,v2]" :=
  (gvsIdentifier_format "g1" "v1" "v2" (by decide)).1

/-! ### Branch equations for the dotted-name parser -/

theorem parseResourceArg_fst (arg : String) :
    (ParseResourceArg arg).1 =
      if 2 ≤ strCount arg '.' then
        some ⟨(splitN3 arg).2.2, (splitN3 arg).2.1, (splitN3 arg).1⟩
      else none := rfl

theorem parseResourceArg_snd (arg : String) :
    (ParseResourceArg arg).2 = ParseGroupResource arg := rfl

theorem parseKindArg_fst (arg : String) :
    (ParseKindArg arg).1 =
      if 2 ≤ strCount arg '.' then
        some ⟨(splitN3 arg).2.2, (splitN3 arg).2.1, (splitN3 arg).1⟩
      else none := rfl

theorem parseKindArg_snd (arg : String) :
    (ParseKindArg arg).2 = ParseGroupKind arg := rfl

theorem parseGroupResource_eq_no_dot {arg : String} (h : '.' ∉ arg.data) :
    ParseGroupResource arg = ⟨"", arg⟩ := by
  unfold ParseGroupResource
  rw [charIndex_eq_none.mpr h]

theorem parseGroupResource_eq_dot {arg : String} {l r : List Char}
    (he : arg.data = l ++ '.' :: r) (hl : '.' ∉ l) :
    ParseGroupResource arg = ⟨⟨r⟩, ⟨l⟩⟩ := by
  unfold ParseGroupResource
  have hi : charIndex '.' arg.data = some l.length := by
    rw [he]
    exact charIndex_append _ _ hl
  rw [hi]
  show GroupResource.mk (strDrop arg (l.length + 1)) (strTake arg l.length) = _
  unfold strDrop strTake
  rw [he, drop_append_cons, take_append_cons]

theorem parseGroupKind_eq_no_dot {arg : String} (h : '.' ∉ arg.data) :
    ParseGroupKind arg = ⟨"", arg⟩ := by
  unfold ParseGroupKind
  rw [charIndex_eq_none.mpr h]

theorem parseGroupKind_eq_dot {arg : String} {l r : List Char}
    (he : arg.data = l ++ '.' :: r) (hl : '.' ∉ l) :
    ParseGroupKind arg = ⟨⟨r⟩, ⟨l⟩⟩ := by
  unfold ParseGroupKind
  have hi : charIndex '.' arg.data = some l.length := by
    rw [he]
    exact charIndex_append _ _ hl
  rw [hi]
  show GroupKind.mk (strDrop arg (l.length + 1)) (strTake arg l.length) = _
  unfold strDrop strTake
  rw [he, drop_append_cons, take_append_cons]

theorem splitN3_eq {arg : String} {l1 l2 r : List Char}
    (he : arg.data = l1 ++ '.' :: (l2 ++ '.' :: r)) (h1 : '.' ∉ l1) (h2 : '.' ∉ l2) :
    splitN3 arg = (⟨l1⟩, ⟨l2⟩, ⟨r⟩) := by
  unfold splitN3
  have hi : charIndex '.' arg.data = some l1.length := by
    rw [he]
    exact charIndex_append _ _ h1
  have hrest : strDrop arg (l1.length + 1) = ⟨l2 ++ '.' :: r⟩ := by
    unfold strDrop
    rw [he, drop_append_cons]
  have hmk : (⟨l2 ++ '.' :: r⟩ : String).data = l2 ++ '.' :: r := rfl
  have ht1 : strTake arg l1.length = ⟨l1⟩ := by
    unfold strTake
    rw [he, take_append_cons]
  have ht2 : strTake ⟨l2 ++ '.' :: r⟩ l2.length = ⟨l2⟩ := by
    unfold strTake
    rw [hmk, take_append_cons]
  have ht3 : strDrop ⟨l2 ++ '.' :: r⟩ (l2.length + 1) = ⟨r⟩ := by
    unfold strDrop
    rw [hmk, drop_append_cons]
  simp only [hi]
  simp only [hrest, hmk, charIndex_append '.' r h2]
  simp only [ht1, ht2, ht3]

theorem count_of_two_dots {arg : String} {l1 l2 r : List Char}
    (he : arg.data = l1 ++ '.' :: (l2 ++ '.' :: r)) (h1 : '.' ∉ l1) (h2 : '.' ∉ l2) :
    strCount arg '.' = r.count '.' + 2 := by
  show arg.data.count '.' = r.count '.' + 2
  rw [he, count_sep_decomp _ _ h1, count_sep_decomp _ _ h2]

theorem two_dots_decomp {arg : String} (h : 2 ≤ strCount arg '.') :
    ∃ l1 l2 r, arg.data = l1 ++ '.' :: (l2 ++ '.' :: r) ∧ '.' ∉ l1 ∧ '.' ∉ l2 := by
  have hmem : '.' ∈ arg.data := by
    by_contra hmem
    have : strCount arg '.' = 0 := List.count_eq_zero.mpr hmem
    omega
  obtain ⟨i, hi⟩ : ∃ i, charIndex '.' arg.data = some i := by
    cases hci : charIndex '.' arg.data with
    | none => exact absurd hmem (charIndex_eq_none.mp hci)
    | some i => exact ⟨i, rfl⟩
  obtain ⟨l1, rest, he1, hn1, -⟩ := charIndex_some_decomp hi
  have hcrest : 1 ≤ rest.count '.' := by
    have : strCount arg '.' = rest.count '.' + 1 := by
      show arg.data.count '.' = rest.count '.' + 1
      rw [he1, count_sep_decomp _ _ hn1]
    omega
  have hmem2 : '.' ∈ rest := by
    by_contra hmem2
    have : rest.count '.' = 0 := List.count_eq_zero.mpr hmem2
    omega
  obtain ⟨j, hj⟩ : ∃ j, charIndex '.' rest = some j := by
    cases hcj : charIndex '.' rest with
    | none => exact absurd hmem2 (charIndex_eq_none.mp hcj)
    | some j => exact ⟨j, rfl⟩
  obtain ⟨l2, r, he2, hn2, -⟩ := charIndex_some_decomp hj
  exact ⟨l1, l2, r, by rw [he1, he2], hn1, hn2⟩

/-- C5: `ParseResourceArg` always computes the coarse split at the first dot
and yields a precise triple exactly when the input has two or more dots,
splitting at the first two dots with the remainder taken verbatim as the
group; `ParseKindArg` behaves identically with Kind in place of Resource. -/
theorem parseArgs_correct (arg : String) :
    ((ParseResourceArg arg).1.isSome ↔ 2 ≤ strCount arg '.')
  ∧ ((ParseKindArg arg).1.isSome ↔ 2 ≤ strCount arg '.')
  ∧ ('.' ∉ arg.data → (ParseResourceArg arg).2 = ⟨"", arg⟩ ∧ (ParseKindArg arg).2 = ⟨"", arg⟩)
  ∧ (∀ l r, arg.data = l ++ '.' :: r → '.' ∉ l →
      (ParseResourceArg arg).2 = ⟨⟨r⟩, ⟨l⟩⟩ ∧ (ParseKindArg arg).2 = ⟨⟨r⟩, ⟨l⟩⟩)
  ∧ (∀ l1 l2 r, arg.data = l1 ++ '.' :: (l2 ++ '.' :: r) → '.' ∉ l1 → '.' ∉ l2 →
      (ParseResourceArg arg).1 = some ⟨⟨r⟩, ⟨l2⟩, ⟨l1⟩⟩ ∧
      (ParseKindArg arg).1 = some ⟨⟨r⟩, ⟨l2⟩, ⟨l1⟩⟩) := by
  refine ⟨?_, ?_, ?_, ?_, ?_⟩
  · rw [parseResourceArg_fst]
    by_cases hc : 2 ≤ strCount arg '.'
    · simp [hc]
    · simp [hc]
  · rw [parseKindArg_fst]
    by_cases hc : 2 ≤ strCount arg '.'
    · simp [hc]
    · simp [hc]
  · intro h
    rw [parseResourceArg_snd, parseKindArg_snd]
    exact ⟨parseGroupResource_eq_no_dot h, parseGroupKind_eq_no_dot h⟩
  · intro l r he hl
    rw [parseResourceArg_snd, parseKindArg_snd]
    exact ⟨parseGroupResource_eq_dot he hl, parseGroupKind_eq_dot he hl⟩
  · intro l1 l2 r he h1 h2
    have hc : 2 ≤ strCount arg '.' := by
      have := count_of_two_dots he h1 h2
      omega
    have hs := splitN3_eq he h1 h2
    rw [parseResourceArg_fst, parseKindArg_fst]
    rw [if_pos hc]
    simp [hs, hc]

/-- Witness for C5 at a concrete input. -/
theorem parseArgs_correct_witness :
    (ParseResourceArg "pods.v1.apps").1 = some ⟨"apps", "v1", "pods"⟩ :=
  ((parseArgs_correct "pods.v1.apps").2.2.2.2
    ['p', 'o', 'd', 's'] ['v', '1'] ['a', 'p', 'p', 's']
    (by decide) (by decide) (by decide)).1

/-- C8: the dotted-name parsers are total and never fail: on every input they
return structurally valid tuples (segments possibly empty) whose parts
reassemble to the input string. -/
theorem parseArgs_total (arg : String) :
    (∀ gr, (ParseResourceArg arg).2 = gr →
        (gr = ⟨"", arg⟩ ∧ '.' ∉ arg.data) ∨ gr.Resource ++ "." ++ gr.Group = arg)
  ∧ (∀ gk, (ParseKindArg arg).2 = gk →
        (gk = ⟨"", arg⟩ ∧ '.' ∉ arg.data) ∨ gk.Kind ++ "." ++ gk.Group = arg)
  ∧ (∀ x, (ParseResourceArg arg).1 = some x →
        x.Resource ++ "." ++ x.Version ++ "." ++ x.Group = arg)
  ∧ (∀ x, (ParseKindArg arg).1 = some x →
        x.Kind ++ "." ++ x.Version ++ "." ++ x.Group = arg) := by
  have hreassemble : ∀ (l r : List Char), arg.data = l ++ '.' :: r →
      (⟨l⟩ : String) ++ "." ++ ⟨r⟩ = arg := by
    intro l r he
    apply data_inj
    rw [String.data_append, String.data_append, he]
    have hdot : ("." : String).data = ['.'] := by decide
    rw [hdot, List.append_assoc]
    rfl
  have hcases : '.' ∈ arg.data ∨ '.' ∉ arg.data := em _
  have hdot : ("." : String).data = ['.'] := by decide
  refine ⟨?_, ?_, ?_, ?_⟩
  · intro gr hgr
    rw [parseResourceArg_snd] at hgr
    rcases hcases with hmem | hmem
    · right
      obtain ⟨i, hi⟩ : ∃ i, charIndex '.' arg.data = some i := by
        cases hci : charIndex '.' arg.data with
        | none => exact absurd hmem (charIndex_eq_none.mp hci)
        | some i => exact ⟨i, rfl⟩
      obtain ⟨l, r, he, hl, -⟩ := charIndex_some_decomp hi
      rw [parseGroupResource_eq_dot he hl] at hgr
      rw [← hgr]
      exact hreassemble l r he
    · left
      rw [parseGroupResource_eq_no_dot hmem] at hgr
      exact ⟨hgr.symm, hmem⟩
  · intro gk hgk
    rw [parseKindArg_snd] at hgk
    rcases hcases with hmem | hmem
    · right
      obtain ⟨i, hi⟩ : ∃ i, charIndex '.' arg.data = some i := by
        cases hci : charIndex '.' arg.data with
        | none => exact absurd hmem (charIndex_eq_none.mp hci)
        | some i => exact ⟨i, rfl⟩
      obtain ⟨l, r, he, hl, -⟩ := charIndex_some_decomp hi
      rw [parseGroupKind_eq_dot he hl] at hgk
      rw [← hgk]
      exact hreassemble l r he
    · left
      rw [parseGroupKind_eq_no_dot hmem] at hgk
      exact ⟨hgk.symm, hmem⟩
  · intro x hx
    rw [parseResourceArg_fst] at hx
    by_cases hc : 2 ≤ strCount arg '.'
    · obtain ⟨l1, l2, r, he, h1, h2⟩ := two_dots_decomp hc
      have hs := splitN3_eq he h1 h2
      rw [if_pos hc] at hx
      simp only [hs] at hx
      injection hx with hx
      rw [← hx]
      apply data_inj
      rw [he]
      simp only [String.data_append, hdot]
      simp [List.append_assoc]
    · rw [if_neg hc] at hx
      exact Option.noConfusion hx
  · intro x hx
    rw [parseKindArg_fst] at hx
    by_cases hc : 2 ≤ strCount arg '.'
    · obtain ⟨l1, l2, r, he, h1, h2⟩ := two_dots_decomp hc
      have hs := splitN3_eq he h1 h2
      rw [if_pos hc] at hx
      simp only [hs] at hx
      injection hx with hx
      rw [← hx]
      apply data_inj
      rw [he]
      simp only [String.data_append, hdot]
      simp [List.append_assoc]
    · rw [if_neg hc] at hx
      exact Option.noConfusion hx

/-- Witness for C8 at a concrete input with a leading dot. -/
theorem parseArgs_total_witness :
    (GroupResource.mk "grp" "" = ⟨"", ".grp"⟩ ∧ '.' ∉ (".grp" : String).data) ∨
      GroupResource.Resource ⟨"grp", ""⟩ ++ "." ++ GroupResource.Group ⟨"grp", ""⟩ = ".grp" :=
  (parseArgs_total ".grp").1 ⟨"grp", ""⟩ (by decide)

/-! ### The preference-list resolver -/

theorem gvs_kindFor_eq_nil {gvs : GroupVersions} {kinds : List GroupVersionKind}
    (h : gvsTargets gvs kinds = []) :
    GroupVersions.KindForGroupVersionKinds gvs kinds = (⟨"", "", ""⟩, false) := by
  unfold GroupVersions.KindForGroupVersionKinds
  rw [h]

theorem gvs_kindFor_eq_single {gvs : GroupVersions} {kinds : List GroupVersionKind}
    {t : GroupVersionKind} (h : gvsTargets gvs kinds = [t]) :
    GroupVersions.KindForGroupVersionKinds gvs kinds = (t, true) := by
  unfold GroupVersions.KindForGroupVersionKinds
  rw [h]

theorem gvs_kindFor_eq_multi {gvs : GroupVersions} {kinds : List GroupVersionKind}
    {t1 t2 : GroupVersionKind} {ts : List GroupVersionKind}
    (h : gvsTargets gvs kinds = t1 :: t2 :: ts) :
    GroupVersions.KindForGroupVersionKinds gvs kinds =
      (bestMatch kinds (t1 :: t2 :: ts), true) := by
  unfold GroupVersions.KindForGroupVersionKinds
  rw [h]

theorem contains_iff_mem {k : GroupVersionKind} {kinds : List GroupVersionKind} :
    kinds.contains k = true ↔ k ∈ kinds := by
  simp [List.contains]

theorem bestMatch_correct (kinds targets : List GroupVersionKind) :
    (∃ b l1 l2, targets = l1 ++ b :: l2 ∧ b ∈ kinds ∧ (∀ x ∈ l1, x ∉ kinds) ∧
        bestMatch kinds targets = b)
  ∨ ((∀ x ∈ targets, x ∉ kinds) ∧
      bestMatch kinds targets = targets.headD ⟨"", "", ""⟩) := by
  unfold bestMatch
  cases hf : targets.find? (fun gvk => kinds.contains gvk) with
  | some k =>
    left
    obtain ⟨hp, l1, l2, he, hall⟩ := find?_eq_some_split hf
    refine ⟨k, l1, l2, he, contains_iff_mem.mp hp, ?_, rfl⟩
    intro x hx hmem
    have hfx := hall x hx
    rw [contains_iff_mem.mpr hmem] at hfx
    exact Bool.noConfusion hfx
  | none =>
    right
    refine ⟨?_, rfl⟩
    intro x hx hmem
    have := List.find?_eq_none.mp hf x hx
    exact this (contains_iff_mem.mpr hmem)

/-- C1: `GroupVersions.KindForGroupVersionKinds` collects the successful probe
results in discovery order (`gvsTargets`); a single collected result is
returned with ok = true; with several, the first collected result literally
present in `kinds` is returned (falling back to the first collected result when
none is present), with ok = true; with none, the zero kind with ok = false. -/
theorem gvs_kindForGroupVersionKinds_correct (gvs : GroupVersions)
    (kinds : List GroupVersionKind) :
    (gvsTargets gvs kinds = [] →
        GroupVersions.KindForGroupVersionKinds gvs kinds = (⟨"", "", ""⟩, false))
  ∧ (∀ t, gvsTargets gvs kinds = [t] →
        GroupVersions.KindForGroupVersionKinds gvs kinds = (t, true))
  ∧ (∀ t1 t2 ts, gvsTargets gvs kinds = t1 :: t2 :: ts →
        (∃ b l1 l2, t1 :: t2 :: ts = l1 ++ b :: l2 ∧ b ∈ kinds ∧
            (∀ x ∈ l1, x ∉ kinds) ∧
            GroupVersions.KindForGroupVersionKinds gvs kinds = (b, true))
        ∨ ((∀ x ∈ t1 :: t2 :: ts, x ∉ kinds) ∧
            GroupVersions.KindForGroupVersionKinds gvs kinds = (t1, true))) := by
  refine ⟨gvs_kindFor_eq_nil, fun t h => gvs_kindFor_eq_single h, ?_⟩
  intro t1 t2 ts h
  rcases bestMatch_correct kinds (t1 :: t2 :: ts) with
      ⟨b, l1, l2, he, hbk, hnone, hbest⟩ | ⟨hall, hbest⟩
  · left
    exact ⟨b, l1, l2, he, hbk, hnone, by rw [gvs_kindFor_eq_multi h, hbest]⟩
  · right
    exact ⟨hall, by rw [gvs_kindFor_eq_multi h, hbest]; rfl⟩

/-- Witness for C1 at a concrete input: a two-element preference list where
only the group matches forces the tie-break fallback to the first collected
candidate. -/
theorem gvs_kindForGroupVersionKinds_correct_witness :
    GroupVersions.KindForGroupVersionKinds [⟨"g1", "va"⟩, ⟨"g1", "vb"⟩]
      [⟨"g1", "v1", "K"⟩] = (⟨"g1", "va", "K"⟩, true) := by
  rcases (gvs_kindForGroupVersionKinds_correct [⟨"g1", "va"⟩, ⟨"g1", "vb"⟩]
      [⟨"g1", "v1", "K"⟩]).2.2 ⟨"g1", "va", "K"⟩ ⟨"g1", "vb", "K"⟩ [] (by decide) with
      ⟨b, l1, l2, he, hbk, -, -⟩ | ⟨-, hres⟩
  · exfalso
    have hbmem : b ∈ [(⟨"g1", "va", "K"⟩ : GroupVersionKind), ⟨"g1", "vb", "K"⟩] := by
      rw [he]
      exact List.mem_append_right l1 (List.mem_cons_self b l2)
    have hbv : b = ⟨"g1", "v1", "K"⟩ := List.mem_singleton.mp hbk
    subst hbv
    revert hbmem
    decide
  · exact hres

/-! ### Round-trip through the serialization-tag string pair -/

/-- C9: for any GroupVersionKind with slash-free group and version,
`FromAPIVersionAndKind` applied to the pair produced by `ToAPIVersionAndKind`
returns the original value; the empty GroupVersionKind maps to `("", "")` and
back. -/
theorem apiVersionAndKind_roundtrip (gvk : GroupVersionKind)
    (hg : '/' ∉ gvk.Group.data) (hv : '/' ∉ gvk.Version.data) :
    FromAPIVersionAndKind gvk.ToAPIVersionAndKind.1 gvk.ToAPIVersionAndKind.2 = gvk
  ∧ GroupVersionKind.ToAPIVersionAndKind ⟨"", "", ""⟩ = ("", "")
  ∧ FromAPIVersionAndKind "" "" = ⟨"", "", ""⟩ := by
  refine ⟨?_, rfl, rfl⟩
  obtain ⟨G, V, K⟩ := gvk
  by_cases hemp : GroupVersionKind.isEmpty ⟨G, V, K⟩ = true
  · have hb := hemp
    unfold GroupVersionKind.isEmpty at hb
    rw [Bool.and_eq_true, Bool.and_eq_true] at hb
    obtain ⟨⟨hbG, hbV⟩, hbK⟩ := hb
    have hG : G = "" := length_zero_iff.mp (beq_iff_eq.mp hbG)
    have hV : V = "" := length_zero_iff.mp (beq_iff_eq.mp hbV)
    have hK : K = "" := length_zero_iff.mp (beq_iff_eq.mp hbK)
    subst hG; subst hV; subst hK
    rfl
  · unfold GroupVersionKind.ToAPIVersionAndKind
    rw [if_neg hemp]
    unfold FromAPIVersionAndKind GroupVersionKind.groupVersion
    by_cases hG : G = ""
    · subst hG
      rw [show GroupVersion.render ⟨"", V⟩ = V from rfl]
      rw [parseGV_eq_of_count0 (List.count_eq_zero.mpr hv)]
    · have hd : (GroupVersion.render ⟨G, V⟩).data = G.data ++ '/' :: V.data :=
        render_data_of_group_ne hG
      have hc : strCount (GroupVersion.render ⟨G, V⟩) '/' = 1 := by
        show (GroupVersion.render ⟨G, V⟩).data.count '/' = 1
        rw [hd, count_sep_decomp _ _ hg, List.count_eq_zero.mpr hv]
      rw [parseGV_eq_of_split hd hg hc]

/-- Witness for C9 at a concrete input. -/
theorem apiVersionAndKind_roundtrip_witness :
    FromAPIVersionAndKind
      (GroupVersionKind.ToAPIVersionAndKind ⟨"apps", "v1", "Deployment"⟩).1
      (GroupVersionKind.ToAPIVersionAndKind ⟨"apps", "v1", "Deployment"⟩).2 =
      ⟨"apps", "v1", "Deployment"⟩ :=
  (apiVersionAndKind_roundtrip ⟨"apps", "v1", "Deployment"⟩ (by decide) (by decide)).1

/-! ### Injectivity analysis of `Identifier` -/

/-- Restriction under which `GroupVersion.Identifier` is injective: neither
field contains the `/` separator. -/
def slashFreeGV (gv : GroupVersion) : Prop :=
  '/' ∉ gv.Group.data ∧ '/' ∉ gv.Version.data

/-- Restriction under which `GroupVersions.Identifier` is injective: each
element has slash-free and comma-free fields and a non-empty rendering. -/
def keyableGV (gv : GroupVersion) : Prop :=
  slashFreeGV gv ∧ ',' ∉ gv.Group.data ∧ ',' ∉ gv.Version.data ∧ gv ≠ ⟨"", ""⟩

theorem render_inj {gv1 gv2 : GroupVersion}
    (h1 : slashFreeGV gv1) (h2 : slashFreeGV gv2)
    (he : GroupVersion.render gv1 = GroupVersion.render gv2) : gv1 = gv2 := by
  obtain ⟨g1, v1⟩ := gv1
  obtain ⟨g2, v2⟩ := gv2
  obtain ⟨h1g, h1v⟩ := h1
  obtain ⟨h2g, h2v⟩ := h2
  have hd := congrArg String.data he
  by_cases e1 : g1 = ""
  · by_cases e2 : g2 = ""
    · subst e1; subst e2
      rw [render_data_of_group_empty, render_data_of_group_empty] at hd
      rw [data_inj hd]
    · exfalso
      subst e1
      rw [render_data_of_group_empty, render_data_of_group_ne e2] at hd
      have : '/' ∈ v1.data := by
        rw [hd]
        exact List.mem_append_right _ (List.mem_cons_self _ _)
      exact h1v this
  · by_cases e2 : g2 = ""
    · exfalso
      subst e2
      rw [render_data_of_group_ne e1, render_data_of_group_empty] at hd
      have : '/' ∈ v2.data := by
        rw [← hd]
        exact List.mem_append_right _ (List.mem_cons_self _ _)
      exact h2v this
    · rw [render_data_of_group_ne e1, render_data_of_group_ne e2] at hd
      obtain ⟨hg, hv⟩ := sep_split_unique h1g h2g hd
      have hgg : g1 = g2 := data_inj hg
      have hvv : v1 = v2 := data_inj hv
      rw [hgg, hvv]

/-- Character-level comma join, the image of `strJoin ","` under `String.data`. -/
def joinC : List (List Char) → List Char
  | [] => []
  | [x] => x
  | x :: xs => x ++ ',' :: joinC xs

theorem strJoin_data : ∀ l : List String,
    (strJoin "," l).data = joinC (l.map String.data)
  | [] => rfl
  | [_] => rfl
  | x :: y :: xs => by
    show (x ++ "," ++ strJoin "," (y :: xs)).data = x.data ++ ',' :: joinC ((y :: xs).map String.data)
    rw [String.data_append, String.data_append, strJoin_data (y :: xs)]
    have hc : ("," : String).data = [','] := by decide
    rw [hc, List.append_assoc]
    rfl

theorem joinC_inj : ∀ {p1 p2 : List (List Char)},
    (∀ x ∈ p1, x ≠ [] ∧ ',' ∉ x) → (∀ x ∈ p2, x ≠ [] ∧ ',' ∉ x) →
    joinC p1 = joinC p2 → p1 = p2
  | [], [], _, _, _ => rfl
  | [], q :: qs, _, h2, he => by
    exfalso
    cases qs with
    | nil => exact (h2 q (List.mem_cons_self q [])).1 he.symm
    | cons q' qs' =>
      have hne : q ++ ',' :: joinC (q' :: qs') ≠ [] := by simp
      exact hne he.symm
  | p :: ps, [], h1, _, he => by
    exfalso
    cases ps with
    | nil => exact (h1 p (List.mem_cons_self p [])).1 he
    | cons p' ps' =>
      have hne : p ++ ',' :: joinC (p' :: ps') ≠ [] := by simp
      exact hne he
  | p :: ps, q :: qs, h1, h2, he => by
    cases ps with
    | nil =>
      cases qs with
      | nil =>
        rw [show joinC [p] = p from rfl, show joinC [q] = q from rfl] at he
        rw [he]
      | cons q' qs' =>
        exfalso
        have he' : p = q ++ ',' :: joinC (q' :: qs') := he
        have hm : ',' ∈ q ++ ',' :: joinC (q' :: qs') :=
          List.mem_append_right _ (List.mem_cons_self _ _)
        rw [← he'] at hm
        exact (h1 p (List.mem_cons_self _ _)).2 hm
    | cons p' ps' =>
      cases qs with
      | nil =>
        exfalso
        have he' : p ++ ',' :: joinC (p' :: ps') = q := he
        have hm : ',' ∈ p ++ ',' :: joinC (p' :: ps') :=
          List.mem_append_right _ (List.mem_cons_self _ _)
        rw [he'] at hm
        exact (h2 q (List.mem_cons_self _ _)).2 hm
      | cons q' qs' =>
        have hsep := sep_split_unique (h1 p (List.mem_cons_self _ _)).2
          (h2 q (List.mem_cons_self _ _)).2 he
        have ih := joinC_inj
          (fun x hx => h1 x (List.mem_cons_of_mem _ hx))
          (fun x hx => h2 x (List.mem_cons_of_mem _ hx)) hsep.2
        rw [hsep.1, ih]

theorem render_piece_ok {gv : GroupVersion} (h : keyableGV gv) :
    (GroupVersion.render gv).data ≠ [] ∧ ',' ∉ (GroupVersion.render gv).data := by
  obtain ⟨g, v⟩ := gv
  obtain ⟨⟨hsg, hsv⟩, hcg, hcv, hne⟩ := h
  by_cases e : g = ""
  · subst e
    rw [render_data_of_group_empty]
    refine ⟨?_, hcv⟩
    intro hnil
    exact hne (by rw [data_eq_nil_iff.mp hnil])
  · rw [render_data_of_group_ne e]
    constructor
    · simp
    · intro hm
      rcases List.mem_append.mp hm with hm | hm
      · exact hcg hm
      · rcases List.mem_cons.mp hm with hc | hm
        · exact absurd hc (by decide)
        · exact hcv hm

theorem render_list_inj : ∀ {s1 s2 : GroupVersions},
    (∀ gv ∈ s1, keyableGV gv) → (∀ gv ∈ s2, keyableGV gv) →
    (s1.map GroupVersion.render).map String.data =
      (s2.map GroupVersion.render).map String.data →
    s1 = s2
  | [], [], _, _, _ => rfl
  | [], _ :: _, _, _, he => by simp at he
  | _ :: _, [], _, _, he => by simp at he
  | gv1 :: s1, gv2 :: s2, h1, h2, he => by
    simp only [List.map_cons, List.cons.injEq] at he
    have hgv : gv1 = gv2 :=
      render_inj (h1 gv1 (List.mem_cons_self _ _)).1 (h2 gv2 (List.mem_cons_self _ _)).1
        (data_inj he.1)
    have ih := render_list_inj
      (fun gv hgv' => h1 gv (List.mem_cons_of_mem _ hgv'))
      (fun gv hgv' => h2 gv (List.mem_cons_of_mem _ hgv'))
      (by simpa using he.2)
    rw [hgv, ih]

/-- C4 counterexample: `Identifier` is not injective for arbitrary field
strings: `{Group:"a", Version:"b"}` and `{Group:"", Version:"a/b"}` are
distinct but both render `"a/b"`. -/
theorem identifier_injective_counterexample :
    ¬ ((∀ gv1 gv2 : GroupVersion, gv1 ≠ gv2 →
          GroupVersion.Identifier gv1 ≠ GroupVersion.Identifier gv2) ∧
       (∀ s1 s2 : GroupVersions, s1 ≠ s2 →
          GroupVersions.Identifier s1 ≠ GroupVersions.Identifier s2)) := by
  rintro ⟨h1, -⟩
  exact h1 ⟨"a", "b"⟩ ⟨"", "a/b"⟩ (by decide) (by decide)

/-- C4 amended: `Identifier` is injective on GroupVersion values with
slash-free fields, and on GroupVersions lists whose elements additionally have
comma-free fields and a non-empty rendering. -/
theorem identifier_injective_amended :
    (∀ gv1 gv2 : GroupVersion, slashFreeGV gv1 → slashFreeGV gv2 →
        GroupVersion.Identifier gv1 = GroupVersion.Identifier gv2 → gv1 = gv2)
  ∧ (∀ s1 s2 : GroupVersions, (∀ gv ∈ s1, keyableGV gv) → (∀ gv ∈ s2, keyableGV gv) →
        GroupVersions.Identifier s1 = GroupVersions.Identifier s2 → s1 = s2) := by
  constructor
  · exact fun gv1 gv2 h1 h2 he => render_inj h1 h2 he
  · intro s1 s2 h1 h2 he
    unfold GroupVersions.Identifier at he
    have hd := congrArg String.data he
    rw [String.data_append, String.data_append, String.data_append,
      String.data_append] at hd
    have hbl : ("[" : String).data = ['['] := by decide
    have hbr : ("]" : String).data = [']'] := by decide
    rw [hbl, hbr] at hd
    have hmid : (strJoin "," (s1.map GroupVersion.render)).data =
        (strJoin "," (s2.map GroupVersion.render)).data := by
      have h1' := List.append_cancel_right hd
      exact List.append_cancel_left h1'
    rw [strJoin_data, strJoin_data] at hmid
    have hpieces : (s1.map GroupVersion.render).map String.data =
        (s2.map GroupVersion.render).map String.data := by
      apply joinC_inj ?_ ?_ hmid
      · intro x hx
        obtain ⟨y, hy, hyx⟩ := List.mem_map.mp hx
        obtain ⟨gv, hgv, hgvy⟩ := List.mem_map.mp hy
        subst hyx; subst hgvy
        exact render_piece_ok (h1 gv hgv)
      · intro x hx
        obtain ⟨y, hy, hyx⟩ := List.mem_map.mp hx
        obtain ⟨gv, hgv, hgvy⟩ := List.mem_map.mp hy
        subst hyx; subst hgvy
        exact render_piece_ok (h2 gv hgv)
    exact render_list_inj h1 h2 hpieces

/-- Witness for the amended C4 at concrete inputs. -/
theorem identifier_injective_amended_witness :
    (⟨"g", "v"⟩ : GroupVersion) = ⟨"g", "v"⟩ :=
  identifier_injective_amended.1 ⟨"g", "v"⟩ ⟨"g", "v"⟩
    ⟨by decide, by decide⟩ ⟨by decide, by decide⟩ rfl

end Scheme
